import Mathlib

/-
Verification of the MeshTools mesh reconstruction and analysis engine.

The Rust sources are shallowly embedded:
* `src/triangle.rs` — triangle type and the binary STL codec (the codec is
  modelled over f32 *bit patterns*, since the claims about it are bit-level);
* `src/mesh.rs` — tolerance-aware vertex welding (`merge_vertices`),
  mesh construction (`TriangleMesh::new`) and flood-fill body counting
  (`TriangleMesh::count_bodies`), modelled with exact rational coordinates;
* `src/thread_request.rs` / `src/analysis_ui.rs` — the one-shot async result
  cell and the body-count worker closure, modelled as a trace semantics over
  the cell state.

The Rust `HashMap` of the welder is modelled as an association list in
insertion order (a deterministic refinement of the unspecified iteration
order).
-/

set_option maxHeartbeats 1000000

/-- 3D vector with exact rational coordinates (embedding of `glm::Vec3`;
the f32 components are modelled exactly). -/
structure Vec3 where
  x : ℚ
  y : ℚ
  z : ℚ
deriving DecidableEq, Repr

/-- Componentwise subtraction `a - b`. -/
def vsub (a b : Vec3) : Vec3 := ⟨a.x - b.x, a.y - b.y, a.z - b.z⟩

/-- Componentwise absolute value (nalgebra `abs`). -/
def vabs (a : Vec3) : Vec3 := ⟨|a.x|, |a.y|, |a.z|⟩

/-- Greatest signed component (nalgebra `Matrix::max`): the maximum of the
three components, not of their absolute values. -/
def vmax (a : Vec3) : ℚ := max a.x (max a.y a.z)

/-- Chebyshev distance: per-axis maximum absolute coordinate difference. -/
def cheb (a b : Vec3) : ℚ := vmax (vabs (vsub a b))

/-- Quantized cell key (`TVec3<i64>`). -/
abbrev Cell := ℤ × ℤ × ℤ

/-- `mesh.rs` lines 49–52: the quantized cell of a vertex, flooring each
coordinate divided by the tolerance. -/
def quantize (d : ℚ) (v : Vec3) : Cell := (⌊v.x / d⌋, ⌊v.y / d⌋, ⌊v.z / d⌋)

/-- One record of the quantized map: cell key, representative position, and
the original vertex indices merged into this record. -/
abbrev QRecord := Cell × Vec3 × List ℕ

/-- The quantized map `HashMap<TVec3<i64>, (Vec3, Vec<usize>)>`, modelled as
an association list in insertion order. -/
abbrev QMap := List QRecord

/-- Lookup in the quantized map (keys are kept unique by construction). -/
def QMap.find (m : QMap) (c : Cell) : Option (Vec3 × List ℕ) :=
  (List.find? (fun r => decide (r.1 = c)) m).map (fun r => r.2)

/-- `indexes.push(i)` on the record stored at cell `c`. -/
def QMap.pushIndex (m : QMap) (c : Cell) (i : ℕ) : QMap :=
  m.map (fun r => if r.1 = c then (r.1, r.2.1, r.2.2 ++ [i]) else r)

/-- `mesh.rs` lines 54–56: the 2×2×2 probe block, x outermost, each axis
ranging over `q - 1 .. q + 1` (upper bound exclusive). -/
def probeCells (q : Cell) : List Cell :=
  [q.1 - 1, q.1].flatMap (fun x =>
    [q.2.1 - 1, q.2.1].flatMap (fun y =>
      [q.2.2 - 1, q.2.2].map (fun z => (x, y, z))))

/-- `mesh.rs` lines 58–59: a probed cell holding a record accepts the incoming
vertex when it is the vertex's own cell, or the greatest *signed* component of
`existing_vertex - v` is below the tolerance. -/
def mergeHit (m : QMap) (d : ℚ) (q : Cell) (v : Vec3) (c : Cell) : Bool :=
  match m.find c with
  | some (ev, _) => decide (c = q) || decide (vmax (vsub ev v) < d)
  | none => false

/-- The first probed cell, in probe order, that accepts the vertex (the
`break`s of lines 62–68 stop at the first hit). -/
def findMerge (m : QMap) (d : ℚ) (q : Cell) (v : Vec3) : Option Cell :=
  (probeCells q).find? (mergeHit m d q v)

/-- Body of the `for v in vertices` loop of `merge_vertices`: merge the index
into the first accepting probed record, otherwise insert a new record under
the vertex's own quantized cell. -/
def processVertex (d : ℚ) (m : QMap) (i : ℕ) (v : Vec3) : QMap :=
  let q := quantize d v
  match findMerge m d q v with
  | some c => m.pushIndex c i
  | none => m ++ [(q, v, [i])]

/-- The merge loop with its explicit running index `i`. -/
def mergeAux (d : ℚ) : QMap → ℕ → List Vec3 → QMap
  | m, _, [] => m
  | m, i, v :: vs => mergeAux d (processVertex d m i v) (i + 1) vs

/-- `merge_vertices` (`mesh.rs` lines 43–76). -/
def merge_vertices (vs : List Vec3) (d : ℚ) : QMap := mergeAux d [] 0 vs

/-- A triangle: three ordered vertices (`triangle.rs` line 6). -/
structure Triangle where
  a : Vec3
  b : Vec3
  c : Vec3
deriving DecidableEq, Repr

/-- The three vertices of a triangle, in order. -/
def triVerts (t : Triangle) : List Vec3 := [t.a, t.b, t.c]

/-- Componentwise minimum. -/
def vmin3 (a b : Vec3) : Vec3 := ⟨min a.x b.x, min a.y b.y, min a.z b.z⟩

/-- Componentwise maximum. -/
def vmax3 (a b : Vec3) : Vec3 := ⟨max a.x b.x, max a.y b.y, max a.z b.z⟩

/-- `bounding_box` (`triangle.rs` lines 83–97): `none` for an empty list,
otherwise the per-axis min/max corner over all vertices of all triangles,
seeded with the first triangle's first vertex. -/
def bounding_box : List Triangle → Option (Vec3 × Vec3)
  | [] => none
  | t :: ts =>
    some (((t :: ts).flatMap triVerts).foldl
      (fun p v => (vmin3 p.1 v, vmax3 p.2 v)) (t.a, t.a))

/-- `mesh.rs` lines 93–99: the welding tolerance, the largest bounding-box
extent divided by 65536 (zero corners when the input is empty). -/
def tolerance (ts : List Triangle) : ℚ :=
  match bounding_box ts with
  | some (mn, mx) => vmax (vsub mx mn) / 65536
  | none => 0

/-- The filter predicate of `mesh.rs` lines 101–105: a triangle is kept when
each of its three edges has per-axis maximum absolute difference at least the
tolerance. -/
def keepTriangle (d : ℚ) (t : Triangle) : Bool :=
  decide (d ≤ cheb t.a t.b) && decide (d ≤ cheb t.b t.c) && decide (d ≤ cheb t.c t.a)

/-- A degenerate triangle: two of its vertices coincide within the tolerance
along every axis (the negation of the filter's keep condition is equivalent
to this, see `keep_iff_not_degenerate`). -/
def degenerateTriangle (d : ℚ) (t : Triangle) : Prop :=
  cheb t.a t.b < d ∨ cheb t.b t.c < d ∨ cheb t.c t.a < d

instance (d : ℚ) (t : Triangle) : Decidable (degenerateTriangle d t) := by
  unfold degenerateTriangle; infer_instance

/-- A face: three vertex indices (`TVec3<usize>`). -/
abbrev Face := ℕ × ℕ × ℕ

/-- `faces[j][k] = val` for `k < 3`. -/
def setCorner (f : Face) (k : ℕ) (val : ℕ) : Face :=
  if k = 0 then (val, f.2.1, f.2.2)
  else if k = 1 then (f.1, val, f.2.2)
  else (f.1, f.2.1, val)

/-- Corner `k` of a face, for `k < 3`. -/
def getCorner (f : Face) (k : ℕ) : ℕ :=
  if k = 0 then f.1 else if k = 1 then f.2.1 else f.2.2

/-- The indexed mesh (`mesh.rs` lines 15–23). -/
structure TriangleMesh where
  vertices : List Vec3
  faces : List Face
  face_map : List (List ℕ)
deriving DecidableEq, Repr

/-- One iteration of the `for (_, (vertex, vertex_map)) in vertex_map` loop of
`TriangleMesh::new` (lines 110–116): rewrite the face corner of every merged
index to the next vertex slot, then push the representative vertex and the
adjacency entry. -/
def buildStep (st : TriangleMesh) (r : QRecord) : TriangleMesh :=
  { vertices := st.vertices ++ [r.2.1]
    faces := r.2.2.foldl
      (fun fs i => fs.set (i / 3) (setCorner (fs.getD (i / 3) (0, 0, 0)) (i % 3) st.vertices.length))
      st.faces
    face_map := st.face_map ++ [r.2.2.map (fun i => i / 3)] }

/-- `TriangleMesh::new` (`mesh.rs` lines 92–118). -/
def TriangleMesh.new (ts : List Triangle) : TriangleMesh :=
  let tol := tolerance ts
  let kept := ts.filter (keepTriangle tol)
  let wm := merge_vertices (kept.flatMap triVerts) tol
  wm.foldl buildStep ⟨[], List.replicate ts.length (0, 0, 0), []⟩

/-- Number of unvisited (label 0) entries among the island markers. -/
def count0 (l : List ℕ) : ℕ := l.count 0

/-- The neighbor stream of a vertex: for every face in its adjacency list, the
three vertices of that face, in iteration order (`mesh.rs` lines 135–141). -/
def neighborVerts (m : TriangleMesh) (vert : ℕ) : List ℕ :=
  (m.face_map.getD vert []).flatMap
    (fun f => [(m.faces.getD f (0, 0, 0)).1, (m.faces.getD f (0, 0, 0)).2.1,
               (m.faces.getD f (0, 0, 0)).2.2])

/-- The marking loop body over one popped vertex's neighbor stream: label and
push every still-unvisited adjacent vertex (the stack is a cons-list with its
head as the top, so pushes of the same iteration pop in Rust's LIFO order). -/
def visitAdjacent (label : ℕ) (p : List ℕ × List ℕ) (ws : List ℕ) : List ℕ × List ℕ :=
  ws.foldl
    (fun p w => if w < p.1.length ∧ p.1.getD w 0 = 0 then (p.1.set w label, w :: p.2) else p) p

theorem count0_set (l : List ℕ) (w label : ℕ) (hw : w < l.length)
    (h0 : l.getD w 0 = 0) (hl : label ≠ 0) :
    count0 (l.set w label) + 1 = count0 l := by
  induction l generalizing w with
  | nil => simp at hw
  | cons hd tl ih =>
    cases w with
    | zero =>
      simp only [List.getD_cons_zero] at h0
      subst h0
      simp [count0, List.count_cons, hl]
    | succ w =>
      simp only [List.getD_cons_succ] at h0
      simp only [List.length_cons, Nat.succ_lt_succ_iff] at hw
      simp only [List.set_cons_succ]
      simp only [count0, List.count_cons] at ih ⊢
      have := ih w hw h0
      omega

theorem visitAdjacent_measure (label : ℕ) (hl : label ≠ 0) (ws : List ℕ)
    (p : List ℕ × List ℕ) :
    2 * count0 (visitAdjacent label p ws).1 + (visitAdjacent label p ws).2.length ≤
      2 * count0 p.1 + p.2.length := by
  induction ws generalizing p with
  | nil => simp [visitAdjacent]
  | cons w ws ih =>
    simp only [visitAdjacent, List.foldl_cons]
    by_cases h : w < p.1.length ∧ p.1.getD w 0 = 0
    · simp only [if_pos h]
      refine le_trans (ih _) ?_
      have := count0_set p.1 w label h.1 h.2 hl
      simp only [List.length_cons]
      omega
    · simp only [if_neg h]
      exact ih p

/-- The flood-fill while loop of `count_bodies` (`mesh.rs` lines 133–143):
pop a vertex, and label and push every unvisited vertex sharing a face with
it. -/
def flood (m : TriangleMesh) (label : ℕ) (hl : label ≠ 0) :
    List ℕ → List ℕ → List ℕ
  | mk, [] => mk
  | mk, vert :: rest =>
    flood m label hl (visitAdjacent label (mk, rest) (neighborVerts m vert)).1
      (visitAdjacent label (mk, rest) (neighborVerts m vert)).2
termination_by mk stack => 2 * count0 mk + stack.length
decreasing_by
  have h : 2 * count0 (visitAdjacent label (mk, rest) (neighborVerts m vert)).1 +
      (visitAdjacent label (mk, rest) (neighborVerts m vert)).2.length ≤
        2 * count0 mk + rest.length :=
    visitAdjacent_measure label hl (neighborVerts m vert) (mk, rest)
  simp only [List.length_cons]
  omega

/-- The outer loop of `count_bodies` (`mesh.rs` lines 124–144) over the
vertex indices, carrying the island markers and the running island count. -/
def countAux (m : TriangleMesh) : List ℕ → ℕ → List ℕ → ℕ
  | _, islandCount, [] => islandCount
  | mk, islandCount, i :: is =>
    if mk.getD i 0 ≠ 0 then countAux m mk islandCount is
    else
      countAux m
        (flood m (islandCount + 1) (Nat.succ_ne_zero _) (mk.set i (islandCount + 1)) [i])
        (islandCount + 1) is

/-- `TriangleMesh::count_bodies` (`mesh.rs` lines 120–146). -/
def TriangleMesh.count_bodies (m : TriangleMesh) : ℕ :=
  countAux m (List.replicate m.vertices.length 0) 0 (List.range m.vertices.length)

/-- A byte of the binary STL file. -/
abbrev Byte := Fin 256

/-- An f32 value, represented by its 32-bit pattern as four little-endian
bytes (`to_le_bytes`/`from_le_bytes` are mutually inverse bijections between
f32 values and byte quadruples, so the bit pattern is a faithful model of the
stored float). -/
structure F32 where
  b0 : Byte
  b1 : Byte
  b2 : Byte
  b3 : Byte
deriving DecidableEq, Repr

/-- A 3-vector of f32 bit patterns. -/
structure Vec3Bits where
  x : F32
  y : F32
  z : F32
deriving DecidableEq, Repr

/-- A triangle as stored in the file: three ordered vertex positions. -/
structure TriangleBits where
  a : Vec3Bits
  b : Vec3Bits
  c : Vec3Bits
deriving DecidableEq, Repr

/-- `f32::to_le_bytes`. -/
def f32Bytes (f : F32) : List Byte := [f.b0, f.b1, f.b2, f.b3]

/-- `write_vec3` (`triangle.rs` lines 17–23): the three coordinates, each as
four little-endian bytes. -/
def vec3Bytes (v : Vec3Bits) : List Byte := f32Bytes v.x ++ f32Bytes v.y ++ f32Bytes v.z

/-- `(len as u32).to_le_bytes()`: the little-endian bytes of the length,
truncated to 32 bits. -/
def u32leBytes (n : ℕ) : List Byte :=
  [⟨n % 256, Nat.mod_lt _ (by norm_num)⟩,
   ⟨n / 256 % 256, Nat.mod_lt _ (by norm_num)⟩,
   ⟨n / 65536 % 256, Nat.mod_lt _ (by norm_num)⟩,
   ⟨n / 16777216 % 256, Nat.mod_lt _ (by norm_num)⟩]

/-- `u32::from_le_bytes` over the first four bytes of a list. -/
def leU32 (l : List Byte) : ℕ :=
  (l.getD 0 0).val + 256 * (l.getD 1 0).val + 65536 * (l.getD 2 0).val +
    16777216 * (l.getD 3 0).val

/-- One 50-byte triangle record as written by `write_stl_binary`
(`triangle.rs` lines 35–44): the recomputed normal, the three vertices, and
two zero attribute bytes.  The normal is computed from the triangle by
floating-point cross product and normalization; that computation is abstracted
as the function argument `normal`, since the stored normal is discarded on
read. -/
def recordBytes (normal : TriangleBits → Vec3Bits) (t : TriangleBits) : List Byte :=
  vec3Bytes (normal t) ++ vec3Bytes t.a ++ vec3Bytes t.b ++ vec3Bytes t.c ++ [0, 0]

/-- `write_stl_binary` (`triangle.rs` lines 28–46): an 80-byte zero header,
the triangle count as a little-endian u32, then one 50-byte record per
triangle. -/
def write_stl_binary (normal : TriangleBits → Vec3Bits) (ts : List TriangleBits) : List Byte :=
  List.replicate 80 0 ++ u32leBytes ts.length ++ ts.flatMap (recordBytes normal)

/-- `read_exact` on a buffered byte stream: the requested bytes and the rest,
or an I/O error when the stream is too short. -/
def readExact (n : ℕ) (bs : List Byte) : Except Unit (List Byte × List Byte) :=
  if n ≤ bs.length then .ok (bs.take n, bs.drop n) else .error ()

/-- `f32::from_le_bytes` of the next four bytes of the stream. -/
def readF32 : List Byte → Except Unit (F32 × List Byte)
  | b0 :: b1 :: b2 :: b3 :: rest => .ok (⟨b0, b1, b2, b3⟩, rest)
  | _ => .error ()

/-- `read_vec3` (`triangle.rs` lines 48–57). -/
def readVec3 (bs : List Byte) : Except Unit (Vec3Bits × List Byte) := do
  let (x, bs) ← readF32 bs
  let (y, bs) ← readF32 bs
  let (z, bs) ← readF32 bs
  return (⟨x, y, z⟩, bs)

/-- The record loop of `read_stl_binary` (`triangle.rs` lines 71–78): for each
of the declared triangles, read and discard a normal, read three vertices,
and read and discard two attribute bytes. -/
def readTriangles : ℕ → List Byte → Except Unit (List TriangleBits × List Byte)
  | 0, bs => .ok ([], bs)
  | n + 1, bs => do
    let (_, bs) ← readVec3 bs
    let (a, bs) ← readVec3 bs
    let (b, bs) ← readVec3 bs
    let (c, bs) ← readVec3 bs
    let (_, bs) ← readExact 2 bs
    let (ts, bs) ← readTriangles n bs
    return (⟨a, b, c⟩ :: ts, bs)

/-- `read_stl_binary` (`triangle.rs` lines 62–80): skip the 80-byte header,
read the u32 triangle count, then read that many records; any short read
aborts with an I/O error and no triangles. -/
def read_stl_binary (bs : List Byte) : Except Unit (List TriangleBits) := do
  let (_, bs) ← readExact 80 bs
  let (cnt, bs) ← readExact 4 bs
  let (ts, _) ← readTriangles (leU32 cnt) bs
  return ts

/-- The triangle count declared in a file's count field (bytes 80–83). -/
def declaredCount (bs : List Byte) : ℕ := leU32 ((bs.drop 80).take 4)

/-- An event on the shared result cell of a `Request`
(`thread_request.rs`): the worker's single write of `Some(result)`, or a
non-mutating poll (`result().read()`) by a reader. -/
inductive CellEvent where
  | write : CellEvent
  | poll : CellEvent
deriving DecidableEq, Repr

/-- Effect of one event on the cell state; `v` is the value produced by the
submitted work (`f()` on line 19), written by the worker on line 20. -/
def stepCell {T : Type} (v : T) (s : Option T) : CellEvent → Option T
  | .write => some v
  | .poll => s

/-- Cell state after a sequence of events, starting from the `None` the cell
is created with (line 15). -/
def cellAfter {T : Type} (v : T) (evs : List CellEvent) : Option T :=
  evs.foldl (stepCell v) none

/-- The values observed by the polls of an event sequence, in order. -/
def pollsAux {T : Type} (v : T) : Option T → List CellEvent → List (Option T)
  | _, [] => []
  | _, .write :: rest => pollsAux v (some v) rest
  | s, .poll :: rest => s :: pollsAux v s rest

/-- Observations of all readers along a schedule, starting from `None`. -/
def pollResults {T : Type} (v : T) (evs : List CellEvent) : List (Option T) :=
  pollsAux v none evs

/-- The body-count worker closure (`analysis_ui.rs` lines 91–97): sample the
shared mesh cell once; return `count_bodies` of the mesh if it is there, and
0 otherwise. -/
def bodyCountWorker (mesh_result : Option TriangleMesh) : ℕ :=
  match mesh_result with
  | some mesh => mesh.count_bodies
  | none => 0


theorem exceptBind_ok {α β : Type} (a : α) (f : α → Except Unit β) :
    (Except.ok a : Except Unit α) >>= f = f a := rfl

theorem exceptBind_err {α β : Type} (f : α → Except Unit β) :
    (Except.error () : Except Unit α) >>= f = Except.error () := rfl

theorem exceptMap_ok {α β : Type} (a : α) (f : α → β) :
    f <$> (Except.ok a : Except Unit α) = Except.ok (f a) := rfl

theorem exceptPure_eq_ok {α : Type} (a : α) : (pure a : Except Unit α) = Except.ok a := rfl

theorem readExact_append (n : ℕ) (l rest : List Byte) (h : l.length = n) :
    readExact n (l ++ rest) = .ok (l, rest) := by
  subst h
  simp [readExact, List.take_left, List.drop_left]

theorem readF32_bytes (f : F32) (rest : List Byte) :
    readF32 (f32Bytes f ++ rest) = .ok (f, rest) := by
  cases f
  simp [f32Bytes, readF32]

theorem readVec3_bytes (v : Vec3Bits) (rest : List Byte) :
    readVec3 (vec3Bytes v ++ rest) = .ok (v, rest) := by
  cases v
  simp only [vec3Bytes, List.append_assoc, readVec3, readF32_bytes, exceptBind_ok,
    exceptMap_ok, exceptPure_eq_ok]

theorem readTriangles_encoded (nf : TriangleBits → Vec3Bits) (ts : List TriangleBits)
    (rest : List Byte) :
    readTriangles ts.length (ts.flatMap (recordBytes nf) ++ rest) = .ok (ts, rest) := by
  induction ts generalizing rest with
  | nil => simp [readTriangles]
  | cons t ts ih =>
    cases t
    simp only [List.length_cons, List.flatMap_cons, recordBytes, List.append_assoc,
      readTriangles, readVec3_bytes, exceptBind_ok,
      readExact_append 2 [0, 0] _ (by simp), ih, exceptMap_ok, exceptPure_eq_ok]

theorem leU32_u32leBytes (n : ℕ) : leU32 (u32leBytes n) = n % 4294967296 := by
  simp only [leU32, u32leBytes, List.getD_cons_zero, List.getD_cons_succ]
  omega

theorem u32leBytes_length (n : ℕ) : (u32leBytes n).length = 4 := by
  simp [u32leBytes]

theorem readExact_header (rest : List Byte) :
    readExact 80 (List.replicate 80 0 ++ rest) = .ok (List.replicate 80 0, rest) :=
  readExact_append 80 _ rest (by simp)

theorem readExact_count (n : ℕ) (rest : List Byte) :
    readExact 4 (u32leBytes n ++ rest) = .ok (u32leBytes n, rest) :=
  readExact_append 4 _ rest (u32leBytes_length n)

/-- Claim C4 (amended): for every triangle list of fewer than 2^32 triangles
and every normal-computation function, writing it with `write_stl_binary` and
reading the bytes back with `read_stl_binary` yields exactly the original
list — same length and bit-for-bit identical vertex positions in order — even
though the stored normals and attribute bytes are discarded on read and
regenerated on write. -/
theorem C4_write_read_roundtrip (nf : TriangleBits → Vec3Bits) (ts : List TriangleBits)
    (h : ts.length < 4294967296) :
    read_stl_binary (write_stl_binary nf ts) = .ok ts := by
  have hrec := readTriangles_encoded nf ts []
  rw [List.append_nil] at hrec
  simp only [read_stl_binary, write_stl_binary, List.append_assoc,
    readExact_header, exceptBind_ok, readExact_count,
    leU32_u32leBytes, Nat.mod_eq_of_lt h, hrec, exceptMap_ok, exceptPure_eq_ok]

/-- Witness for C4's round trip at a concrete one-triangle list. -/
theorem C4_write_read_roundtrip_witness :
    (([⟨⟨⟨1, 2, 3, 4⟩, ⟨5, 6, 7, 8⟩, ⟨9, 10, 11, 12⟩⟩,
       ⟨⟨0, 0, 0, 0⟩, ⟨0, 0, 0, 0⟩, ⟨0, 0, 0, 0⟩⟩,
       ⟨⟨255, 255, 255, 255⟩, ⟨0, 1, 0, 1⟩, ⟨2, 3, 2, 3⟩⟩⟩] : List TriangleBits).length
        < 4294967296) ∧
    read_stl_binary (write_stl_binary (fun _ => ⟨⟨0, 0, 0, 0⟩, ⟨0, 0, 0, 0⟩, ⟨0, 0, 0, 0⟩⟩)
      [⟨⟨⟨1, 2, 3, 4⟩, ⟨5, 6, 7, 8⟩, ⟨9, 10, 11, 12⟩⟩,
        ⟨⟨0, 0, 0, 0⟩, ⟨0, 0, 0, 0⟩, ⟨0, 0, 0, 0⟩⟩,
        ⟨⟨255, 255, 255, 255⟩, ⟨0, 1, 0, 1⟩, ⟨2, 3, 2, 3⟩⟩⟩]) =
      .ok [⟨⟨⟨1, 2, 3, 4⟩, ⟨5, 6, 7, 8⟩, ⟨9, 10, 11, 12⟩⟩,
        ⟨⟨0, 0, 0, 0⟩, ⟨0, 0, 0, 0⟩, ⟨0, 0, 0, 0⟩⟩,
        ⟨⟨255, 255, 255, 255⟩, ⟨0, 1, 0, 1⟩, ⟨2, 3, 2, 3⟩⟩⟩] :=
  ⟨by norm_num, C4_write_read_roundtrip _ _ (by norm_num)⟩

/-- Writing a list of exactly 2^32 triangles stores a wrapped count of 0, so
reading the file back yields the empty list. -/
theorem read_write_at_wrap (nf : TriangleBits → Vec3Bits) (ts : List TriangleBits)
    (h : ts.length = 4294967296) :
    read_stl_binary (write_stl_binary nf ts) = .ok [] := by
  simp only [read_stl_binary, write_stl_binary, List.append_assoc,
    readExact_header, exceptBind_ok, readExact_count,
    leU32_u32leBytes, h, Nat.mod_self, readTriangles, exceptMap_ok, exceptPure_eq_ok]

/-- Counterexample to claim C4 as stated: at a list of exactly 2^32 triangles
the `as u32` cast truncates the stored count to 0, so reading the written
file yields the empty triangle list, not a list of the same length. -/
theorem C4_claim_fails_at_u32_overflow :
    read_stl_binary (write_stl_binary (fun _ => ⟨⟨0, 0, 0, 0⟩, ⟨0, 0, 0, 0⟩, ⟨0, 0, 0, 0⟩⟩)
      (List.replicate 4294967296
        ⟨⟨⟨0, 0, 0, 0⟩, ⟨0, 0, 0, 0⟩, ⟨0, 0, 0, 0⟩⟩,
         ⟨⟨0, 0, 0, 0⟩, ⟨0, 0, 0, 0⟩, ⟨0, 0, 0, 0⟩⟩,
         ⟨⟨0, 0, 0, 0⟩, ⟨0, 0, 0, 0⟩, ⟨0, 0, 0, 0⟩⟩⟩)) = .ok [] ∧
    (List.replicate 4294967296
      (⟨⟨⟨0, 0, 0, 0⟩, ⟨0, 0, 0, 0⟩, ⟨0, 0, 0, 0⟩⟩,
        ⟨⟨0, 0, 0, 0⟩, ⟨0, 0, 0, 0⟩, ⟨0, 0, 0, 0⟩⟩,
        ⟨⟨0, 0, 0, 0⟩, ⟨0, 0, 0, 0⟩, ⟨0, 0, 0, 0⟩⟩⟩ : TriangleBits)).length ≠ 0 := by
  constructor
  · exact read_write_at_wrap _ _ (List.length_replicate _ _)
  · rw [List.length_replicate]
    norm_num

theorem readF32_ok_length (bs : List Byte) (f : F32) (rest : List Byte)
    (h : readF32 bs = .ok (f, rest)) : bs.length = rest.length + 4 := by
  match bs with
  | [] => simp [readF32] at h
  | [b0] => simp [readF32] at h
  | [b0, b1] => simp [readF32] at h
  | [b0, b1, b2] => simp [readF32] at h
  | b0 :: b1 :: b2 :: b3 :: r =>
    simp only [readF32, Except.ok.injEq, Prod.mk.injEq] at h
    rw [← h.2]
    simp

theorem readVec3_ok_length (bs : List Byte) (v : Vec3Bits) (rest : List Byte)
    (h : readVec3 bs = .ok (v, rest)) : bs.length = rest.length + 12 := by
  unfold readVec3 at h
  match h1 : readF32 bs with
  | .error e => cases e; rw [h1] at h; simp [exceptBind_err] at h
  | .ok (x, bs1) =>
    rw [h1] at h
    simp only [exceptBind_ok] at h
    match h2 : readF32 bs1 with
    | .error e => cases e; rw [h2] at h; simp [exceptBind_err] at h
    | .ok (y, bs2) =>
      rw [h2] at h
      simp only [exceptBind_ok] at h
      match h3 : readF32 bs2 with
      | .error e =>
        cases e
        rw [h3] at h
        exact absurd
          (show (Except.error () : Except Unit (Vec3Bits × List Byte)) =
            Except.ok (v, rest) from h) (by simp)
      | .ok (z, bs3) =>
        rw [h3] at h
        have h' : (Except.ok ((⟨x, y, z⟩ : Vec3Bits), bs3) :
            Except Unit (Vec3Bits × List Byte)) = Except.ok (v, rest) := h
        simp only [Except.ok.injEq, Prod.mk.injEq] at h'
        have := readF32_ok_length _ _ _ h1
        have := readF32_ok_length _ _ _ h2
        have := readF32_ok_length _ _ _ h3
        rw [← h'.2]
        omega

theorem readExact_ok_length (n : ℕ) (bs l rest : List Byte)
    (h : readExact n bs = .ok (l, rest)) : bs.length = rest.length + n := by
  unfold readExact at h
  by_cases hn : n ≤ bs.length
  · rw [if_pos hn] at h
    simp only [Except.ok.injEq, Prod.mk.injEq] at h
    rw [← h.2]
    simp
    omega
  · rw [if_neg hn] at h
    simp at h

theorem readTriangles_short (n : ℕ) (bs : List Byte) (h : bs.length < 50 * n) :
    readTriangles n bs = .error () := by
  induction n generalizing bs with
  | zero => omega
  | succ n ih =>
    unfold readTriangles
    match h1 : readVec3 bs with
    | .error e => cases e; rfl
    | .ok (nrm, bs1) =>
      have l1 := readVec3_ok_length _ _ _ h1
      simp only [exceptBind_ok]
      match h2 : readVec3 bs1 with
      | .error e => cases e; rfl
      | .ok (va, bs2) =>
        have l2 := readVec3_ok_length _ _ _ h2
        simp only [exceptBind_ok]
        match h3 : readVec3 bs2 with
        | .error e => cases e; rfl
        | .ok (vb, bs3) =>
          have l3 := readVec3_ok_length _ _ _ h3
          simp only [exceptBind_ok]
          match h4 : readVec3 bs3 with
          | .error e => cases e; rfl
          | .ok (vc, bs4) =>
            have l4 := readVec3_ok_length _ _ _ h4
            simp only [exceptBind_ok]
            match h5 : readExact 2 bs4 with
            | .error e => cases e; rfl
            | .ok (attrs, bs5) =>
              have l5 := readExact_ok_length _ _ _ _ h5
              simp only [exceptBind_ok]
              rw [ih bs5 (by omega)]
              rfl

/-- Claim C5: for every input file whose content is too short to supply the
80-byte header, the 4-byte count, and all `N` declared 50-byte triangle
records, `read_stl_binary` returns an I/O error — by the result type, the
caller receives no partial triangle list. -/
theorem C5_short_file_read_error (bs : List Byte)
    (h : bs.length < 84 + 50 * declaredCount bs) :
    read_stl_binary bs = .error () := by
  unfold read_stl_binary
  by_cases h80 : 80 ≤ bs.length
  · simp only [readExact, if_pos h80, exceptBind_ok]
    by_cases h4 : 4 ≤ (bs.drop 80).length
    · have h84 : 84 ≤ bs.length := by
        simp only [List.length_drop] at h4
        omega
      simp only [if_pos h4, exceptBind_ok]
      have hd : declaredCount bs = leU32 ((bs.drop 80).take 4) := rfl
      rw [← hd]
      rw [readTriangles_short (declaredCount bs) ((bs.drop 80).drop 4)
        (by simp only [List.length_drop]; omega)]
      rfl
    · simp only [if_neg h4]
      rfl
  · simp only [readExact, if_neg h80]
    rfl

/-- Witness for C5 at the empty file. -/
theorem C5_short_file_read_error_witness :
    (([] : List Byte).length < 84 + 50 * declaredCount []) ∧
    read_stl_binary [] = .error () :=
  ⟨by norm_num [declaredCount, leU32], C5_short_file_read_error []
    (by norm_num [declaredCount, leU32])⟩

theorem pollsAux_from_some {T : Type} (v : T) (evs : List CellEvent) :
    pollsAux v (some v) evs = List.replicate (evs.count CellEvent.poll) (some v) := by
  induction evs with
  | nil => simp [pollsAux]
  | cons e rest ih =>
    cases e with
    | write => simpa [pollsAux, List.count_cons] using ih
    | poll => simp [pollsAux, List.count_cons, ih, List.replicate_succ]

theorem foldl_stepCell_from_some {T : Type} (v : T) (evs : List CellEvent) :
    evs.foldl (stepCell v) (some v) = some v := by
  induction evs with
  | nil => rfl
  | cons e rest ih =>
    cases e with
    | write => simpa [stepCell] using ih
    | poll => simpa [stepCell] using ih

/-- Claim C9: along any schedule in which the cell is written exactly once
(the worker body of `thread_request.rs` performs a single `Some` write of the
work's result), the readers' observed values form a block of `none`s followed
by a block of `some v` — never a cleared or replaced value — and the cell ends
holding `some v`. -/
theorem C9_cell_write_once_monotonic {T : Type} (v : T) (evs : List CellEvent)
    (h : evs.count CellEvent.write = 1) :
    (∃ k m, pollResults v evs = List.replicate k none ++ List.replicate m (some v) ∧
      k + m = evs.count CellEvent.poll) ∧
    cellAfter v evs = some v := by
  unfold pollResults cellAfter
  induction evs with
  | nil => simp at h
  | cons e rest ih =>
    cases e with
    | write =>
      refine ⟨⟨0, rest.count CellEvent.poll, ?_, ?_⟩, ?_⟩
      · simp [pollsAux, pollsAux_from_some, List.count_cons]
      · simp [List.count_cons]
      · simp only [List.foldl_cons, stepCell]
        exact foldl_stepCell_from_some v rest
    | poll =>
      simp only [List.count_cons, reduceCtorEq, if_false, ite_false] at h
      have h' : rest.count CellEvent.write = 1 := by simpa using h
      obtain ⟨⟨k, m, hpoll, hkm⟩, hafter⟩ := ih h'
      refine ⟨⟨k + 1, m, ?_, ?_⟩, ?_⟩
      · simp [pollsAux, hpoll, List.replicate_succ]
      · simp [List.count_cons]
        omega
      · simpa [stepCell] using hafter

/-- Witness for C9 at a concrete schedule: a poll before the write observes
`none`, polls after it observe `some 7`. -/
theorem C9_cell_write_once_monotonic_witness :
    (([CellEvent.poll, CellEvent.write, CellEvent.poll].count CellEvent.write) = 1) ∧
    ((∃ k m, pollResults 7 [CellEvent.poll, CellEvent.write, CellEvent.poll] =
        List.replicate k none ++ List.replicate m (some 7) ∧
      k + m = [CellEvent.poll, CellEvent.write,
        CellEvent.poll].count CellEvent.poll) ∧
    cellAfter 7 [CellEvent.poll, CellEvent.write, CellEvent.poll] = some 7) :=
  ⟨by decide, C9_cell_write_once_monotonic 7 _ (by decide)⟩

theorem cellAfter_eq_ite {T : Type} (v : T) (evs : List CellEvent) :
    cellAfter v evs = if CellEvent.write ∈ evs then some v else none := by
  unfold cellAfter
  induction evs with
  | nil => simp
  | cons e rest ih =>
    cases e with
    | write =>
      simp only [List.foldl_cons, stepCell, List.mem_cons, true_or, if_true]
      exact foldl_stepCell_from_some v rest
    | poll =>
      simp only [List.foldl_cons, stepCell, List.mem_cons, reduceCtorEq, false_or]
      exact ih

/-- Claim C8: the body-count worker closure samples the shared mesh cell once,
at the instant it runs: if the mesh worker's write has not yet happened at
that instant the closure returns 0, otherwise it returns `count_bodies` of
the written mesh; it never waits or retries (it is a function of that single
sampled value). -/
theorem C8_body_worker_polls_once (m : TriangleMesh) (pre : List CellEvent) :
    bodyCountWorker (cellAfter m pre) =
      if CellEvent.write ∈ pre then m.count_bodies else 0 := by
  rw [cellAfter_eq_ite]
  by_cases h : CellEvent.write ∈ pre
  · simp [h, bodyCountWorker]
  · simp [h, bodyCountWorker]

theorem quantize_one (v : Vec3) : quantize 1 v = (⌊v.x⌋, ⌊v.y⌋, ⌊v.z⌋) := by
  simp [quantize]

/-- A single connected triangle fan: three triangles sharing the corner
(0,0,0); the coordinate extent is 65536, so the derived tolerance is 1. -/
def fanTriangles : List Triangle :=
  [⟨⟨0, 0, 0⟩, ⟨65536, 0, 0⟩, ⟨0, 65536, 0⟩⟩,
   ⟨⟨0, 0, 0⟩, ⟨0, 65536, 0⟩, ⟨65536, 65536, 0⟩⟩,
   ⟨⟨0, 0, 0⟩, ⟨65536, 65536, 0⟩, ⟨0, 0, 65536⟩⟩]

/-- The mesh `TriangleMesh::new` builds from `fanTriangles`. -/
def fanMesh : TriangleMesh :=
  ⟨[⟨0, 0, 0⟩, ⟨65536, 0, 0⟩, ⟨0, 65536, 0⟩, ⟨65536, 65536, 0⟩, ⟨0, 0, 65536⟩],
   [(0, 1, 2), (0, 2, 3), (0, 3, 4)],
   [[0, 1, 2], [0], [0, 1], [1, 2], [2]]⟩

/-- Two triangles with disjoint, far-apart vertex sets (two bodies). -/
def twoBodyTriangles : List Triangle :=
  [⟨⟨0, 0, 0⟩, ⟨65536, 0, 0⟩, ⟨0, 65536, 0⟩⟩,
   ⟨⟨0, 0, 65536⟩, ⟨65536, 0, 65536⟩, ⟨0, 65536, 65536⟩⟩]

/-- The mesh `TriangleMesh::new` builds from `twoBodyTriangles`. -/
def twoBodyMesh : TriangleMesh :=
  ⟨[⟨0, 0, 0⟩, ⟨65536, 0, 0⟩, ⟨0, 65536, 0⟩, ⟨0, 0, 65536⟩, ⟨65536, 0, 65536⟩,
    ⟨0, 65536, 65536⟩],
   [(0, 1, 2), (3, 4, 5)],
   [[0], [0], [0], [1], [1], [1]]⟩

theorem fan_tolerance : tolerance fanTriangles = 1 := by
  norm_num [tolerance, bounding_box, triVerts, vmin3, vmax3, vmax, vsub, fanTriangles]

theorem fan_new : TriangleMesh.new fanTriangles = fanMesh := by
  simp only [TriangleMesh.new, fan_tolerance]
  norm_num [fanTriangles, fanMesh, keepTriangle, cheb, vabs, vmax, vsub, triVerts,
    merge_vertices, mergeAux, processVertex, quantize_one, findMerge, probeCells,
    mergeHit, QMap.find, QMap.pushIndex, List.find?, buildStep, setCorner, Prod.ext_iff,
    List.replicate, List.set]

theorem fan_count : fanMesh.count_bodies = 1 := by
  simp only [TriangleMesh.count_bodies, fanMesh]
  norm_num [countAux, flood, neighborVerts, visitAdjacent, List.replicate, List.range,
    List.range.loop, List.set]

theorem twoBody_tolerance : tolerance twoBodyTriangles = 1 := by
  norm_num [tolerance, bounding_box, triVerts, vmin3, vmax3, vmax, vsub, twoBodyTriangles]

theorem twoBody_new : TriangleMesh.new twoBodyTriangles = twoBodyMesh := by
  simp only [TriangleMesh.new, twoBody_tolerance]
  norm_num [twoBodyTriangles, twoBodyMesh, keepTriangle, cheb, vabs, vmax, vsub, triVerts,
    merge_vertices, mergeAux, processVertex, quantize_one, findMerge, probeCells,
    mergeHit, QMap.find, QMap.pushIndex, List.find?, buildStep, setCorner, Prod.ext_iff,
    List.replicate, List.set]

theorem twoBody_count : twoBodyMesh.count_bodies = 2 := by
  simp only [TriangleMesh.count_bodies, twoBodyMesh]
  norm_num [countAux, flood, neighborVerts, visitAdjacent, List.replicate, List.range,
    List.range.loop, List.set]

/-- Claim C7: `count_bodies` counts the connected components of the
vertex-adjacency graph induced by shared faces, instantiated at the claim's
three scenarios: the mesh built from an empty triangle list has body count 0,
from a single connected triangle fan body count 1, and from two triangle sets
with disjoint, far-apart vertex coordinates body count 2. -/
theorem C7_count_bodies_instances :
    (TriangleMesh.new []).count_bodies = 0 ∧
    (TriangleMesh.new fanTriangles).count_bodies = 1 ∧
    (TriangleMesh.new twoBodyTriangles).count_bodies = 2 := by
  refine ⟨rfl, ?_, ?_⟩
  · rw [fan_new]
    exact fan_count
  · rw [twoBody_new]
    exact twoBody_count

/-- Claim C1 (the code evaluated at an input violating the claim): with
tolerance 1, the incoming vertex (1,0,0) — own quantized cell (1,0,0) — is
merged into the record stored at the different cell (0,0,0), although the
Chebyshev distance between that record's representative (0,0,0) and the
incoming vertex is 1, which is not below the tolerance.  The code's merge
test compares the greatest signed component of `existing_vertex - v` (here 0)
instead of the greatest absolute component. -/
theorem C1_merge_despite_chebyshev_at_tolerance :
    merge_vertices [⟨0, 0, 0⟩, ⟨1, 0, 0⟩] 1 = [((0, 0, 0), ⟨0, 0, 0⟩, [0, 1])] ∧
    quantize 1 ⟨1, 0, 0⟩ ≠ (0, 0, 0) ∧
    ¬ (cheb ⟨0, 0, 0⟩ ⟨1, 0, 0⟩ < 1) := by
  refine ⟨?_, ?_, ?_⟩
  · norm_num [merge_vertices, mergeAux, processVertex, quantize_one, findMerge, probeCells,
      mergeHit, QMap.find, QMap.pushIndex, vmax, vsub, List.find?, Prod.ext_iff]
  · norm_num [quantize_one, Prod.ext_iff]
  · norm_num [cheb, vmax, vabs, vsub]

/-- The key and representative position of a record (unchanged by
`pushIndex`). -/
def keyPos (r : QRecord) : Cell × Vec3 := (r.1, r.2.1)

/-- Separation of two records as established by a failed probe: distinct
cells, and if the earlier record's cell lies in the probe window of the later
one, the merge test between them failed. -/
def recSep (d : ℚ) (r s : QRecord) : Prop :=
  r.1 ≠ s.1 ∧ (r.1 ∈ probeCells s.1 → ¬ vmax (vsub r.2.1 s.2.1) < d)

/-- Invariant of the quantized map: records pairwise separated, and every
record is stored under the quantized cell of its representative. -/
def WellSep (d : ℚ) (m : QMap) : Prop :=
  List.Pairwise (recSep d) m ∧ ∀ r ∈ m, quantize d r.2.1 = r.1

/-- Total number of occurrences of the original index `i` in the map. -/
def idxCount (m : QMap) (i : ℕ) : ℕ := (m.map (fun r => r.2.2.count i)).sum

/-- The map holds exactly the indices below `n`, each exactly once. -/
def IdxRange (m : QMap) (n : ℕ) : Prop :=
  ∀ i, idxCount m i = if i < n then 1 else 0

theorem pushIndex_keyPos (m : QMap) (c : Cell) (i : ℕ) :
    (m.pushIndex c i).map keyPos = m.map keyPos := by
  unfold QMap.pushIndex
  rw [List.map_map]
  apply List.map_congr_left
  intro r _
  by_cases h : r.1 = c <;> simp [h, keyPos]

theorem q_mem_probeCells (q : Cell) : q ∈ probeCells q := by
  simp only [probeCells, List.mem_flatMap, List.mem_map]
  exact ⟨q.1, by simp, q.2.1, by simp, q.2.2, by simp, rfl⟩

theorem find_of_mem_distinctKeys (m : QMap) (r : QRecord)
    (hk : List.Pairwise (fun a b => a.1 ≠ b.1) m) (hr : r ∈ m) :
    QMap.find m r.1 = some r.2 := by
  induction m with
  | nil => simp at hr
  | cons a rest ih =>
    rcases List.mem_cons.mp hr with h1 | h2
    · subst h1
      unfold QMap.find
      rw [List.find?_cons_of_pos _ (by simp)]
      rfl
    · have ha : a.1 ≠ r.1 := (List.pairwise_cons.mp hk).1 r h2
      have ih' := ih (List.pairwise_cons.mp hk).2 h2
      unfold QMap.find at ih' ⊢
      rw [List.find?_cons_of_neg _ (by simp [ha])]
      exact ih'

theorem findMerge_none_hit (m : QMap) (d : ℚ) (q : Cell) (v : Vec3)
    (h : findMerge m d q v = none) :
    ∀ c ∈ probeCells q, mergeHit m d q v c = false := by
  intro c hc
  have := List.find?_eq_none.mp h c hc
  simpa using this

theorem mergeHit_false (m : QMap) (d : ℚ) (q : Cell) (v : Vec3) (c : Cell)
    (h : mergeHit m d q v c = false) (p : Vec3) (l : List ℕ)
    (hfind : QMap.find m c = some (p, l)) :
    c ≠ q ∧ ¬ vmax (vsub p v) < d := by
  unfold mergeHit at h
  rw [hfind] at h
  simpa using h

theorem idxCount_append (m m' : QMap) (i : ℕ) :
    idxCount (m ++ m') i = idxCount m i + idxCount m' i := by
  simp [idxCount]

theorem idxCount_pushIndex (m : QMap) (c : Cell) (i j : ℕ)
    (hk : List.Pairwise (fun a b => a.1 ≠ b.1) m)
    (hc : ∃ pr, QMap.find m c = some pr) :
    idxCount (QMap.pushIndex m c i) j = idxCount m j + (if j = i then 1 else 0) := by
  induction m with
  | nil => simp [QMap.find, List.find?] at hc
  | cons a rest ih =>
    have hpair := List.pairwise_cons.mp hk
    by_cases hac : a.1 = c
    · have htail : QMap.pushIndex rest c i = rest := by
        unfold QMap.pushIndex
        have harg : ∀ r ∈ rest, (if r.1 = c then (r.1, r.2.1, r.2.2 ++ [i]) else r) = id r := by
          intro r hr
          have hne : a.1 ≠ r.1 := hpair.1 r hr
          rw [if_neg (by rw [← hac]; exact fun hh => hne hh.symm)]
          rfl
        rw [List.map_congr_left harg, List.map_id]
      unfold QMap.pushIndex
      simp only [List.map_cons, if_pos hac]
      have heq : List.map (fun r => if r.1 = c then (r.1, r.2.1, r.2.2 ++ [i]) else r) rest
          = QMap.pushIndex rest c i := rfl
      rw [heq, htail]
      simp only [idxCount, List.map_cons, List.sum_cons]
      have hcnt : (a.2.2 ++ [i]).count j = a.2.2.count j + (if j = i then 1 else 0) := by
        rcases eq_or_ne j i with hji | hji
        · subst hji
          simp [List.count_append]
        · simp [List.count_append, List.count_cons, hji, Ne.symm hji]
      rw [hcnt]
      omega
    · have hc' : ∃ pr, QMap.find rest c = some pr := by
        obtain ⟨pr, hpr⟩ := hc
        unfold QMap.find at hpr ⊢
        rw [List.find?_cons_of_neg _ (by simp [hac])] at hpr
        exact ⟨pr, hpr⟩
      have ihh := ih hpair.2 hc'
      unfold QMap.pushIndex
      simp only [List.map_cons, if_neg hac]
      have heq : List.map (fun r => if r.1 = c then (r.1, r.2.1, r.2.2 ++ [i]) else r) rest
          = QMap.pushIndex rest c i := rfl
      rw [heq]
      simp only [idxCount, List.map_cons, List.sum_cons]
      unfold idxCount at ihh
      omega

theorem pushArg_key (c : Cell) (i : ℕ) (r : QRecord) :
    (if r.1 = c then (r.1, r.2.1, r.2.2 ++ [i]) else r).1 = r.1 := by
  split <;> rfl

theorem pushArg_pos (c : Cell) (i : ℕ) (r : QRecord) :
    (if r.1 = c then (r.1, r.2.1, r.2.2 ++ [i]) else r).2.1 = r.2.1 := by
  split <;> rfl

theorem wellSep_pushIndex (d : ℚ) (m : QMap) (c : Cell) (i : ℕ) (h : WellSep d m) :
    WellSep d (QMap.pushIndex m c i) := by
  obtain ⟨hp, hq⟩ := h
  constructor
  · unfold QMap.pushIndex
    rw [List.pairwise_map]
    refine hp.imp ?_
    intro a b hab
    unfold recSep at hab ⊢
    rw [pushArg_key, pushArg_key, pushArg_pos, pushArg_pos]
    exact hab
  · intro r hr
    unfold QMap.pushIndex at hr
    obtain ⟨r0, hr0, hmap⟩ := List.mem_map.mp hr
    rw [← hmap, pushArg_key, pushArg_pos]
    exact hq r0 hr0

theorem wellSep_insert (d : ℚ) (m : QMap) (i : ℕ) (v : Vec3)
    (h : WellSep d m) (hnone : findMerge m d (quantize d v) v = none) :
    WellSep d (m ++ [(quantize d v, v, [i])]) := by
  obtain ⟨hp, hq⟩ := h
  have hhit := findMerge_none_hit _ _ _ _ hnone
  constructor
  · rw [List.pairwise_append]
    refine ⟨hp, List.pairwise_singleton _ _, ?_⟩
    intro a ha b hb
    simp only [List.mem_singleton] at hb
    subst hb
    have hfa : QMap.find m a.1 = some a.2 :=
      find_of_mem_distinctKeys m a (hp.imp (fun hab => hab.1)) ha
    constructor
    · intro hkey
      have hmem : a.1 ∈ probeCells (quantize d v) := by
        rw [hkey]
        exact q_mem_probeCells _
      exact (mergeHit_false m d (quantize d v) v a.1 (hhit a.1 hmem) a.2.1 a.2.2 hfa).1 hkey
    · intro hmem
      exact (mergeHit_false m d (quantize d v) v a.1 (hhit a.1 hmem) a.2.1 a.2.2 hfa).2
  · intro r hr
    rcases List.mem_append.mp hr with h1 | h2
    · exact hq r h1
    · simp only [List.mem_singleton] at h2
      subst h2
      rfl

theorem processVertex_merge (d : ℚ) (m : QMap) (i : ℕ) (v : Vec3) (c : Cell)
    (hfm : findMerge m d (quantize d v) v = some c) :
    processVertex d m i v = QMap.pushIndex m c i := by
  simp only [processVertex]
  rw [hfm]

theorem processVertex_insert (d : ℚ) (m : QMap) (i : ℕ) (v : Vec3)
    (hfm : findMerge m d (quantize d v) v = none) :
    processVertex d m i v = m ++ [(quantize d v, v, [i])] := by
  simp only [processVertex]
  rw [hfm]

theorem wellSep_processVertex (d : ℚ) (m : QMap) (i : ℕ) (v : Vec3)
    (hs : WellSep d m) : WellSep d (processVertex d m i v) := by
  cases hfm : findMerge m d (quantize d v) v with
  | some c =>
    rw [processVertex_merge d m i v c hfm]
    exact wellSep_pushIndex d m c i hs
  | none =>
    rw [processVertex_insert d m i v hfm]
    exact wellSep_insert d m i v hs hfm

theorem idxRange_processVertex (d : ℚ) (m : QMap) (i : ℕ) (v : Vec3)
    (hs : WellSep d m) (hr : IdxRange m i) :
    IdxRange (processVertex d m i v) (i + 1) := by
  cases hfm : findMerge m d (quantize d v) v with
  | none =>
    intro j
    rw [processVertex_insert d m i v hfm, idxCount_append]
    have hone : idxCount [(quantize d v, v, [i])] j = if j = i then 1 else 0 := by
      rcases eq_or_ne j i with hji | hji
      · subst hji
        simp [idxCount]
      · simp [idxCount, List.count_cons, hji, Ne.symm hji]
    rw [hr j, hone]
    split_ifs <;> omega
  | some c =>
    have hc : ∃ pr, QMap.find m c = some pr := by
      have htrue := List.find?_some hfm
      unfold mergeHit at htrue
      cases hfind : QMap.find m c with
      | none => rw [hfind] at htrue; simp at htrue
      | some pr => exact ⟨pr, rfl⟩
    intro j
    rw [processVertex_merge d m i v c hfm,
      idxCount_pushIndex m c i j (hs.1.imp (fun hab => hab.1)) hc, hr j]
    split_ifs <;> omega

theorem mergeAux_invariant (d : ℚ) (vs : List Vec3) :
    ∀ (m : QMap) (i : ℕ), WellSep d m → IdxRange m i →
      WellSep d (mergeAux d m i vs) ∧ IdxRange (mergeAux d m i vs) (i + vs.length) := by
  induction vs with
  | nil =>
    intro m i hs hr
    simpa [mergeAux] using ⟨hs, hr⟩
  | cons v vs ih =>
    intro m i hs hr
    simp only [mergeAux, List.length_cons]
    have h1 := wellSep_processVertex d m i v hs
    have h2 := idxRange_processVertex d m i v hs hr
    have h3 := ih (processVertex d m i v) (i + 1) h1 h2
    refine ⟨h3.1, ?_⟩
    have harith : i + (vs.length + 1) = i + 1 + vs.length := by omega
    rw [harith]
    exact h3.2

theorem merge_vertices_invariant (vs : List Vec3) (d : ℚ) :
    WellSep d (merge_vertices vs d) ∧ IdxRange (merge_vertices vs d) vs.length := by
  have h0 : WellSep d ([] : QMap) := ⟨List.Pairwise.nil, by simp⟩
  have h1 : IdxRange ([] : QMap) 0 := fun i => by simp [idxCount]
  have := mergeAux_invariant d vs [] 0 h0 h1
  simpa [merge_vertices] using this

theorem find_keyPos_congr (c : Cell) (l₁ l₂ : QMap)
    (h : l₁.map keyPos = l₂.map keyPos) :
    (List.find? (fun r => decide (r.1 = c)) l₁).map keyPos =
      (List.find? (fun r => decide (r.1 = c)) l₂).map keyPos := by
  induction l₁ generalizing l₂ with
  | nil =>
    cases l₂ with
    | nil => rfl
    | cons b l => simp at h
  | cons a l ih =>
    cases l₂ with
    | nil => simp at h
    | cons b l₂' =>
      simp only [List.map_cons, List.cons.injEq] at h
      have hkey0 : (keyPos a).1 = (keyPos b).1 := congrArg Prod.fst h.1
      have hkey : a.1 = b.1 := hkey0
      by_cases hac : a.1 = c
      · rw [List.find?_cons_of_pos _ (by simp [hac]),
          List.find?_cons_of_pos _ (by simp [← hkey, hac])]
        simp [h.1]
      · rw [List.find?_cons_of_neg _ (by simp [hac]),
          List.find?_cons_of_neg _ (by simp [← hkey, hac])]
        exact ih l₂' h.2

theorem mergeAux_reps (d : ℚ) (M : QMap) (hsep : WellSep d M) :
    ∀ (S : QMap), ∀ (P m' : QMap) (j : ℕ), M = P ++ S →
      m'.map keyPos = P.map keyPos →
      (mergeAux d m' j (S.map (fun r => r.2.1))).map keyPos = M.map keyPos := by
  intro S
  induction S with
  | nil =>
    intro P m' j hM hkp
    simpa [mergeAux, hM] using hkp
  | cons r S' ih =>
    intro P m' j hM hkp
    have hrM : r ∈ M := by
      rw [hM]
      simp
    have hq : quantize d r.2.1 = r.1 := hsep.2 r hrM
    have hsepPr : ∀ a ∈ P, recSep d a r := by
      intro a ha
      have hpw : List.Pairwise (recSep d) (P ++ r :: S') := hM ▸ hsep.1
      exact (List.pairwise_append.mp hpw).2.2 a ha r (by simp)
    have hfindPa : ∀ c pr, QMap.find m' c = some pr →
        ∃ a ∈ P, a.1 = c ∧ a.2.1 = pr.1 := by
      intro c pr hfind
      unfold QMap.find at hfind
      cases hfind? : List.find? (fun r => decide (r.1 = c)) m' with
      | none => rw [hfind?] at hfind; simp at hfind
      | some r' =>
        rw [hfind?] at hfind
        simp only [Option.map_some'] at hfind
        have hcongr := find_keyPos_congr c m' P hkp
        rw [hfind?] at hcongr
        cases hfindP : List.find? (fun r => decide (r.1 = c)) P with
        | none => rw [hfindP] at hcongr; simp at hcongr
        | some a =>
          rw [hfindP] at hcongr
          simp only [Option.map_some', Option.some.injEq] at hcongr
          refine ⟨a, List.mem_of_find?_eq_some hfindP, ?_, ?_⟩
          · simpa using List.find?_some hfindP
          · have h10 : (keyPos a).2 = (keyPos r').2 := congrArg Prod.snd hcongr.symm
            have h1 : a.2.1 = r'.2.1 := h10
            have h2 : r'.2 = pr := Option.some.inj hfind
            rw [h1, ← h2]
    have hnone : findMerge m' d (quantize d r.2.1) r.2.1 = none := by
      apply List.find?_eq_none.mpr
      intro c hc
      simp only [Bool.not_eq_true]
      cases hfind : QMap.find m' c with
      | none =>
        unfold mergeHit
        rw [hfind]
      | some pr =>
        unfold mergeHit
        rw [hfind]
        obtain ⟨a, haP, hac, hapos⟩ := hfindPa c pr hfind
        rcases hsepPr a haP with ⟨hne, hfar⟩
        simp only [Bool.or_eq_false_iff, decide_eq_false_iff_not]
        constructor
        · rw [hq, ← hac]
          exact hne
        · rw [← hapos]
          apply hfar
          rw [hac, ← hq]
          exact hc
    simp only [List.map_cons, mergeAux]
    rw [processVertex_insert d m' j r.2.1 hnone]
    apply ih (P ++ [r]) (m' ++ [(quantize d r.2.1, r.2.1, [j])]) (j + 1)
    · rw [hM, List.append_assoc]
      rfl
    · simp [hkp, keyPos, hq]

/-- Counterexample to claim C6 as stated: the hash map's iteration order is
unspecified (randomized in Rust), so "the list of representative positions
produced by a first application" can be any permutation of the stored
records' positions.  Welding [(1/10,0,0), (-1/2,0,0)] at tolerance 1 yields
two records, but re-welding the representative list in the reversed order —
a permutation of it, hence a legal iteration order — yields one record:
(1/10,0,0)'s 2×2×2 probe window contains (-1/2,0,0)'s cell (-1,0,0), and the
signed-max merge test max(-3/5,0,0) = 0 < 1 accepts.  So the re-welded entry
count is 1, not 2, and idempotence fails for that order. -/
theorem C6_claim_fails_reversed_order :
    (merge_vertices [⟨1/10, 0, 0⟩, ⟨-1/2, 0, 0⟩] 1).length = 2 ∧
    (((merge_vertices [⟨1/10, 0, 0⟩, ⟨-1/2, 0, 0⟩] 1).map (fun r => r.2.1)).reverse).Perm
      ((merge_vertices [⟨1/10, 0, 0⟩, ⟨-1/2, 0, 0⟩] 1).map (fun r => r.2.1)) ∧
    (merge_vertices
      (((merge_vertices [⟨1/10, 0, 0⟩, ⟨-1/2, 0, 0⟩] 1).map (fun r => r.2.1)).reverse)
      1).length = 1 := by
  have h1 : merge_vertices [⟨1/10, 0, 0⟩, ⟨-1/2, 0, 0⟩] 1 =
      [((0, 0, 0), ⟨1/10, 0, 0⟩, [0]), ((-1, 0, 0), ⟨-1/2, 0, 0⟩, [1])] := by
    norm_num [merge_vertices, mergeAux, processVertex, quantize_one, findMerge, probeCells,
      mergeHit, QMap.find, QMap.pushIndex, vmax, vsub, List.find?, Prod.ext_iff]
  have h2 : merge_vertices [(⟨-1/2, 0, 0⟩ : Vec3), ⟨1/10, 0, 0⟩] 1 =
      [((-1, 0, 0), ⟨-1/2, 0, 0⟩, [0, 1])] := by
    norm_num [merge_vertices, mergeAux, processVertex, quantize_one, findMerge, probeCells,
      mergeHit, QMap.find, QMap.pushIndex, vmax, vsub, List.find?, Prod.ext_iff]
  refine ⟨by rw [h1]; rfl, List.reverse_perm _, ?_⟩
  rw [h1]
  simp only [List.map_cons, List.map_nil, List.reverse_cons, List.reverse_nil,
    List.nil_append, List.cons_append]
  rw [h2]
  rfl

/-- Claim C6 (amended): welding is idempotent for the insertion-order reading
of the hash map — for every vertex sequence and every positive tolerance,
applying `merge_vertices` to the representative positions of a first
application, taken in the order the records were inserted, yields a map with
the same number of entries: every representative's probes fail against the
same keys and positions its own first-run probes failed against, so each is
re-inserted as its own record.  (Under other legal iteration orders the
count can shrink — see the counterexample.) -/
theorem C6_weld_idempotent (vs : List Vec3) (d : ℚ) (h : 0 < d) :
    (merge_vertices ((merge_vertices vs d).map (fun r => r.2.1)) d).length =
      (merge_vertices vs d).length := by
  have hsep := (merge_vertices_invariant vs d).1
  have key := mergeAux_reps d (merge_vertices vs d) hsep (merge_vertices vs d) [] [] 0
    (by simp) (by simp)
  have hlen := congrArg List.length key
  simpa [merge_vertices] using hlen

/-- Corner `k` of face slot `j` of a face list (out-of-range reads give the
placeholder). -/
def cornerVal (fs : List Face) (j k : ℕ) : ℕ := getCorner (fs.getD j (0, 0, 0)) k

/-- The inner corner-rewriting loop of one welded record (`mesh.rs`
lines 111–113), writing vertex slot `w`. -/
def writeCorners (w : ℕ) (fs : List Face) (idxs : List ℕ) : List Face :=
  idxs.foldl (fun fs i => fs.set (i / 3) (setCorner (fs.getD (i / 3) (0, 0, 0)) (i % 3) w)) fs

/-- Position of the welded record containing corner index `i`, if any. -/
def groupIdxAux (i : ℕ) : QMap → Option ℕ
  | [] => none
  | r :: rest => if i ∈ r.2.2 then some 0 else (groupIdxAux i rest).map (· + 1)

/-- Index of the weld group of corner `i` in the map (the vertex slot the
corner is rewritten to). -/
def groupIdx (m : QMap) (i : ℕ) : Option ℕ := groupIdxAux i m

/-- Pairwise disjointness of the records' corner-index lists. -/
def IdxDisjoint (m : QMap) : Prop :=
  List.Pairwise (fun r s => ∀ i, i ∈ r.2.2 → i ∉ s.2.2) m

theorem getCorner_setCorner (f : Face) (w k' k : ℕ) (hk : k < 3) (hk' : k' < 3) :
    getCorner (setCorner f k' w) k = if k = k' then w else getCorner f k := by
  interval_cases k <;> interval_cases k' <;> simp [getCorner, setCorner]

theorem getD_set_self (fs : List Face) (p : ℕ) (x : Face) (hp : p < fs.length) :
    (fs.set p x).getD p (0, 0, 0) = x := by
  induction fs generalizing p with
  | nil => simp at hp
  | cons a rest ih =>
    cases p with
    | zero => simp
    | succ p =>
      simp only [List.set_cons_succ, List.getD_cons_succ]
      exact ih p (by simpa using hp)

theorem getD_set_ne (fs : List Face) (p j : ℕ) (x : Face) (hne : p ≠ j) :
    (fs.set p x).getD j (0, 0, 0) = fs.getD j (0, 0, 0) := by
  induction fs generalizing p j with
  | nil => simp
  | cons a rest ih =>
    cases p with
    | zero =>
      cases j with
      | zero => exact absurd rfl hne
      | succ j => simp
    | succ p =>
      cases j with
      | zero => simp
      | succ j =>
        simp only [List.set_cons_succ, List.getD_cons_succ]
        exact ih p j (by omega)

theorem cornerVal_set (fs : List Face) (i w j k : ℕ) (hk : k < 3) (hj : j < fs.length) :
    cornerVal (fs.set (i / 3) (setCorner (fs.getD (i / 3) (0, 0, 0)) (i % 3) w)) j k =
      if 3 * j + k = i then w else cornerVal fs j k := by
  have hmod : i % 3 < 3 := Nat.mod_lt _ (by norm_num)
  by_cases hji : j = i / 3
  · subst hji
    unfold cornerVal
    rw [getD_set_self fs _ _ hj]
    rw [getCorner_setCorner _ _ _ _ hk hmod]
    have hiff : (3 * (i / 3) + k = i) ↔ (k = i % 3) := by omega
    by_cases hkm : k = i % 3
    · rw [if_pos hkm, if_pos (hiff.mpr hkm)]
    · rw [if_neg hkm, if_neg (fun hh => hkm (hiff.mp hh))]
  · unfold cornerVal
    rw [getD_set_ne fs _ _ _ (fun hh => hji hh.symm)]
    rw [if_neg (by omega)]

theorem writeCorners_length (w : ℕ) (idxs : List ℕ) (fs : List Face) :
    (writeCorners w fs idxs).length = fs.length := by
  induction idxs generalizing fs with
  | nil => rfl
  | cons i rest ih =>
    simp only [writeCorners, List.foldl_cons]
    have heq : List.foldl
        (fun fs i => fs.set (i / 3) (setCorner (fs.getD (i / 3) (0, 0, 0)) (i % 3) w)) 
        (fs.set (i / 3) (setCorner (fs.getD (i / 3) (0, 0, 0)) (i % 3) w)) rest =
        writeCorners w (fs.set (i / 3) (setCorner (fs.getD (i / 3) (0, 0, 0)) (i % 3) w)) rest := rfl
    rw [heq, ih]
    simp

theorem cornerVal_writeCorners (w : ℕ) (idxs : List ℕ) (fs : List Face) (j k : ℕ)
    (hk : k < 3) (hj : j < fs.length) :
    cornerVal (writeCorners w fs idxs) j k =
      if (3 * j + k) ∈ idxs then w else cornerVal fs j k := by
  induction idxs generalizing fs with
  | nil => simp [writeCorners]
  | cons i rest ih =>
    simp only [writeCorners, List.foldl_cons]
    have heq : List.foldl
        (fun fs i => fs.set (i / 3) (setCorner (fs.getD (i / 3) (0, 0, 0)) (i % 3) w)) 
        (fs.set (i / 3) (setCorner (fs.getD (i / 3) (0, 0, 0)) (i % 3) w)) rest =
        writeCorners w (fs.set (i / 3) (setCorner (fs.getD (i / 3) (0, 0, 0)) (i % 3) w)) rest := rfl
    rw [heq, ih _ (by simpa using hj)]
    rw [cornerVal_set fs i w j k hk hj]
    by_cases hmem : (3 * j + k) ∈ rest
    · simp [hmem]
    · by_cases hieq : 3 * j + k = i
      · simp [hmem, hieq]
      · simp [hmem, hieq]

theorem groupIdxAux_none (i : ℕ) (m : QMap) (h : ∀ s ∈ m, i ∉ s.2.2) :
    groupIdxAux i m = none := by
  induction m with
  | nil => rfl
  | cons r rest ih =>
    simp only [groupIdxAux, if_neg (h r (by simp))]
    rw [ih (fun s hs => h s (by simp [hs]))]
    rfl

theorem buildStep_eq (st : TriangleMesh) (r : QRecord) :
    buildStep st r =
      ⟨st.vertices ++ [r.2.1], writeCorners st.vertices.length st.faces r.2.2,
       st.face_map ++ [r.2.2.map (fun i => i / 3)]⟩ := rfl

theorem buildRun : ∀ (recs : QMap), IdxDisjoint recs → ∀ (st : TriangleMesh),
    (recs.foldl buildStep st).vertices = st.vertices ++ recs.map (fun r => r.2.1) ∧
    (recs.foldl buildStep st).face_map =
      st.face_map ++ recs.map (fun r => r.2.2.map (fun i => i / 3)) ∧
    (recs.foldl buildStep st).faces.length = st.faces.length ∧
    ∀ j k, k < 3 → j < st.faces.length →
      cornerVal (recs.foldl buildStep st).faces j k =
        (match groupIdx recs (3 * j + k) with
         | some g => st.vertices.length + g
         | none => cornerVal st.faces j k) := by
  intro recs
  induction recs with
  | nil =>
    intro _ st
    refine ⟨by simp, by simp, rfl, ?_⟩
    intro j k _ _
    simp [groupIdx, groupIdxAux]
  | cons r rest ih =>
    intro hdisj st
    have hpair := List.pairwise_cons.mp hdisj
    obtain ⟨hv, hfm, hflen, hcorner⟩ := ih hpair.2 (buildStep st r)
    rw [buildStep_eq] at hv hfm hflen hcorner
    simp only [List.foldl_cons, buildStep_eq st r]
    refine ⟨?_, ?_, ?_, ?_⟩
    · rw [hv]
      simp
    · rw [hfm]
      simp
    · rw [hflen]
      exact writeCorners_length _ _ _
    · intro j k hk hj
      have hj' : j < (writeCorners st.vertices.length st.faces r.2.2).length := by
        rw [writeCorners_length]
        exact hj
      rw [hcorner j k hk hj']
      by_cases hmem : (3 * j + k) ∈ r.2.2
      · have hnone : groupIdxAux (3 * j + k) rest = none :=
          groupIdxAux_none _ _ (fun s hs => hpair.1 s hs (3 * j + k) hmem)
        simp only [groupIdx, groupIdxAux, if_pos hmem, hnone]
        rw [cornerVal_writeCorners _ _ _ _ _ hk hj]
        simp [hmem]
      · simp only [groupIdx, groupIdxAux, if_neg hmem]
        cases hg : groupIdxAux (3 * j + k) rest with
        | none =>
          simp only [hg, Option.map_none']
          rw [cornerVal_writeCorners _ _ _ _ _ hk hj]
          simp [hmem]
        | some g =>
          simp only [hg, Option.map_some']
          simp only [List.length_append, List.length_singleton]
          ring

theorem mem_le_idxCount (m : QMap) (s : QRecord) (i : ℕ) (hs : s ∈ m) (hi : i ∈ s.2.2) :
    1 ≤ idxCount m i := by
  induction m with
  | nil => simp at hs
  | cons r rest ih =>
    rcases List.mem_cons.mp hs with h1 | h2
    · subst h1
      have hpos : 0 < s.2.2.count i := List.count_pos_iff.mpr hi
      simp only [idxCount, List.map_cons, List.sum_cons]
      omega
    · have hle := ih h2
      simp only [idxCount, List.map_cons, List.sum_cons]
      unfold idxCount at hle
      omega

theorem idxBound_disjoint (m : QMap) (hb : ∀ i, idxCount m i ≤ 1) : IdxDisjoint m := by
  induction m with
  | nil => exact List.Pairwise.nil
  | cons r rest ih =>
    refine List.Pairwise.cons ?_ (ih ?_)
    · intro s hs i hir his
      have h1 : 0 < r.2.2.count i := List.count_pos_iff.mpr hir
      have h2 : 1 ≤ idxCount rest i := mem_le_idxCount rest s i hs his
      have h3 := hb i
      simp only [idxCount, List.map_cons, List.sum_cons] at h3
      unfold idxCount at h2
      omega
    · intro i
      have h3 := hb i
      simp only [idxCount, List.map_cons, List.sum_cons] at h3
      unfold idxCount
      omega

theorem groupIdx_of_count (m : QMap) (i : ℕ) (h : 1 ≤ idxCount m i) :
    ∃ g, groupIdx m i = some g ∧ g < m.length := by
  induction m with
  | nil => simp [idxCount] at h
  | cons r rest ih =>
    by_cases hmem : i ∈ r.2.2
    · exact ⟨0, by simp [groupIdx, groupIdxAux, hmem], by simp⟩
    · have hc0 : r.2.2.count i = 0 := List.count_eq_zero.mpr hmem
      have h' : 1 ≤ idxCount rest i := by
        simp only [idxCount, List.map_cons, List.sum_cons, hc0] at h
        unfold idxCount
        omega
      obtain ⟨g, hg, hglen⟩ := ih h'
      refine ⟨g + 1, ?_, by simp; omega⟩
      unfold groupIdx at hg
      simp [groupIdx, groupIdxAux, hmem, hg]

theorem groupIdx_none_of_count (m : QMap) (i : ℕ) (h : idxCount m i = 0) :
    groupIdx m i = none := by
  apply groupIdxAux_none
  intro s hs hmem
  have := mem_le_idxCount m s i hs hmem
  omega

/-- The retained (non-degenerate) triangles of an input, in order. -/
def keptTriangles (ts : List Triangle) : List Triangle :=
  ts.filter (keepTriangle (tolerance ts))

/-- The welded vertex map built by `TriangleMesh::new`. -/
def weldMap (ts : List Triangle) : QMap :=
  merge_vertices ((keptTriangles ts).flatMap triVerts) (tolerance ts)

theorem new_eq_foldl (ts : List Triangle) :
    TriangleMesh.new ts =
      (weldMap ts).foldl buildStep ⟨[], List.replicate ts.length (0, 0, 0), []⟩ := rfl

theorem flatVerts_length (K : List Triangle) :
    (K.flatMap triVerts).length = 3 * K.length := by
  induction K with
  | nil => rfl
  | cons t rest ih =>
    simp only [List.flatMap_cons, List.length_append, List.length_cons, ih, triVerts,
      List.length_cons, List.length_nil]
    omega

theorem weldMap_idxRange (ts : List Triangle) :
    IdxRange (weldMap ts) (3 * (keptTriangles ts).length) := by
  have h := (merge_vertices_invariant ((keptTriangles ts).flatMap triVerts) (tolerance ts)).2
  rwa [flatVerts_length] at h

theorem weldMap_disjoint (ts : List Triangle) : IdxDisjoint (weldMap ts) :=
  idxBound_disjoint _ (fun i => by rw [weldMap_idxRange ts i]; split_ifs <;> omega)

theorem getD_replicate_zero (n j : ℕ) :
    (List.replicate n ((0, 0, 0) : Face)).getD j (0, 0, 0) = (0, 0, 0) := by
  induction n generalizing j with
  | zero => simp
  | succ n ih =>
    cases j with
    | zero => simp [List.replicate_succ]
    | succ j => simp [List.replicate_succ, ih j]

theorem getCorner_zeroFace (k : ℕ) : getCorner ((0, 0, 0) : Face) k = 0 := by
  unfold getCorner
  split_ifs <;> rfl

theorem new_char (ts : List Triangle) :
    (TriangleMesh.new ts).vertices = (weldMap ts).map (fun r => r.2.1) ∧
    (TriangleMesh.new ts).face_map =
      (weldMap ts).map (fun r => r.2.2.map (fun i => i / 3)) ∧
    (TriangleMesh.new ts).faces.length = ts.length ∧
    ∀ j k, k < 3 → j < ts.length →
      cornerVal (TriangleMesh.new ts).faces j k =
        (match groupIdx (weldMap ts) (3 * j + k) with
         | some g => g
         | none => 0) := by
  obtain ⟨hv, hfm, hflen, hcorner⟩ :=
    buildRun (weldMap ts) (weldMap_disjoint ts) ⟨[], List.replicate ts.length (0, 0, 0), []⟩
  rw [← new_eq_foldl] at hv hfm hflen hcorner
  refine ⟨by simpa using hv, by simpa using hfm, by simpa using hflen, ?_⟩
  intro j k hk hj
  have hc := hcorner j k hk (by simpa using hj)
  rw [hc]
  cases hg : groupIdx (weldMap ts) (3 * j + k) with
  | some g => simp
  | none =>
    simp only []
    unfold cornerVal
    simp only [getD_replicate_zero, getCorner_zeroFace]

theorem new_vertices_length (ts : List Triangle) :
    (TriangleMesh.new ts).vertices.length = (weldMap ts).length := by
  rw [(new_char ts).1, List.length_map]

theorem new_faces_padding (ts : List Triangle) :
    ∀ j, (keptTriangles ts).length ≤ j → j < ts.length →
      (TriangleMesh.new ts).faces.getD j (0, 0, 0) = (0, 0, 0) := by
  intro j hle hlt
  have hcv : ∀ k, k < 3 → cornerVal (TriangleMesh.new ts).faces j k = 0 := by
    intro k hk
    rw [(new_char ts).2.2.2 j k hk hlt]
    have hcount : idxCount (weldMap ts) (3 * j + k) = 0 := by
      rw [weldMap_idxRange ts (3 * j + k), if_neg (by omega)]
    rw [groupIdx_none_of_count _ _ hcount]
  have h0 := hcv 0 (by norm_num)
  have h1 := hcv 1 (by norm_num)
  have h2 := hcv 2 (by norm_num)
  unfold cornerVal at h0 h1 h2
  rw [Prod.ext_iff, Prod.ext_iff]
  exact ⟨h0, h1, h2⟩

theorem keep_iff_not_degenerate (d : ℚ) (t : Triangle) :
    keepTriangle d t = true ↔ ¬ degenerateTriangle d t := by
  simp [keepTriangle, degenerateTriangle, not_or, not_lt, and_assoc]

/-- Claim C10 (amended): the face list of the built mesh has the length of
the original input, including filtered triangles; the slots at positions at
and beyond the retained-triangle count keep the placeholder face (0,0,0).
(A filtered triangle's own slot, however, can be rewritten by the next
retained triangle, because corner indices are assigned over the filtered
stream — see the counterexample.) -/
theorem C10_faces_length_and_padding (ts : List Triangle) :
    (TriangleMesh.new ts).faces.length = ts.length ∧
    ∀ j, (keptTriangles ts).length ≤ j → j < ts.length →
      (TriangleMesh.new ts).faces.getD j (0, 0, 0) = (0, 0, 0) :=
  ⟨(new_char ts).2.2.1, new_faces_padding ts⟩

/-- Claim C2: a triangle two of whose vertices coincide within the tolerance
along every axis is dropped by the filter, so the mesh — whose faces are
built solely from the surviving triangles' corners — contains no face entry
contributed by it; face slots beyond the retained triangles stay the
placeholder. -/
theorem C2_degenerate_excluded (ts : List Triangle) (t : Triangle)
    (hdeg : degenerateTriangle (tolerance ts) t) :
    t ∉ keptTriangles ts ∧
    TriangleMesh.new ts =
      (merge_vertices ((keptTriangles ts).flatMap triVerts) (tolerance ts)).foldl buildStep
        ⟨[], List.replicate ts.length (0, 0, 0), []⟩ ∧
    ∀ j, (keptTriangles ts).length ≤ j → j < ts.length →
      (TriangleMesh.new ts).faces.getD j (0, 0, 0) = (0, 0, 0) := by
  refine ⟨?_, rfl, new_faces_padding ts⟩
  intro hmem
  have hkeep := List.of_mem_filter hmem
  exact (keep_iff_not_degenerate _ t).mp hkeep hdeg

/-- Claim C3 (amended): provided the input is empty or at least one triangle
survives the degenerate filter, every index stored in every face is a valid
index into the vertex list, every adjacency entry is a valid index into the
face list, and every retained triangle corresponds to exactly one face: the
face at its position in the filtered sequence, whose corners are the weld
groups of its corners. -/
theorem C3_mesh_index_invariants (ts : List Triangle)
    (h : ts = [] ∨ keptTriangles ts ≠ []) :
    (∀ f ∈ (TriangleMesh.new ts).faces,
      f.1 < (TriangleMesh.new ts).vertices.length ∧
      f.2.1 < (TriangleMesh.new ts).vertices.length ∧
      f.2.2 < (TriangleMesh.new ts).vertices.length) ∧
    (∀ l ∈ (TriangleMesh.new ts).face_map, ∀ e ∈ l,
      e < (TriangleMesh.new ts).faces.length) ∧
    (∀ j, j < (keptTriangles ts).length → ∀ k, k < 3 →
      ∃ g, groupIdx (weldMap ts) (3 * j + k) = some g ∧
        g < (TriangleMesh.new ts).vertices.length ∧
        cornerVal (TriangleMesh.new ts).faces j k = g) := by
  obtain ⟨hv, hfm, hflen, hcorner⟩ := new_char ts
  have hKn : (keptTriangles ts).length ≤ ts.length := List.length_filter_le _ _
  have hVlen := new_vertices_length ts
  have hcv_lt : ∀ j k, k < 3 → j < ts.length →
      cornerVal (TriangleMesh.new ts).faces j k < (TriangleMesh.new ts).vertices.length := by
    intro j k hk hj
    rw [hcorner j k hk hj]
    by_cases hjk : 3 * j + k < 3 * (keptTriangles ts).length
    · have hcount : 1 ≤ idxCount (weldMap ts) (3 * j + k) := by
        rw [weldMap_idxRange ts (3 * j + k), if_pos hjk]
      obtain ⟨g, hg, hglen⟩ := groupIdx_of_count _ _ hcount
      rw [hg]
      show g < (TriangleMesh.new ts).vertices.length
      rw [hVlen]
      exact hglen
    · have hcount : idxCount (weldMap ts) (3 * j + k) = 0 := by
        rw [weldMap_idxRange ts (3 * j + k), if_neg hjk]
      rw [groupIdx_none_of_count _ _ hcount]
      show 0 < (TriangleMesh.new ts).vertices.length
      rw [hVlen]
      rcases h with hnil | hne
      · subst hnil
        simp at hj
      · have hK1 : 1 ≤ (keptTriangles ts).length := by
          cases hkk : keptTriangles ts with
          | nil => exact absurd hkk hne
          | cons a l => simp [hkk]
        have hcount1 : 1 ≤ idxCount (weldMap ts) 0 := by
          rw [weldMap_idxRange ts 0, if_pos (by omega)]
        obtain ⟨g, hg, hglen⟩ := groupIdx_of_count _ _ hcount1
        omega
  refine ⟨?_, ?_, ?_⟩
  · intro f hf
    obtain ⟨j, hj, hjf⟩ := List.mem_iff_getElem.mp hf
    have hjn : j < ts.length := by rwa [hflen] at hj
    have hgd : (TriangleMesh.new ts).faces.getD j (0, 0, 0) = f := by
      rw [List.getD_eq_getElem _ _ hj, hjf]
    have h0 := hcv_lt j 0 (by norm_num) hjn
    have h1 := hcv_lt j 1 (by norm_num) hjn
    have h2 := hcv_lt j 2 (by norm_num) hjn
    unfold cornerVal at h0 h1 h2
    rw [hgd] at h0 h1 h2
    exact ⟨h0, h1, h2⟩
  · intro l hl e he
    rw [hfm] at hl
    obtain ⟨r, hr, hrl⟩ := List.mem_map.mp hl
    rw [← hrl] at he
    obtain ⟨i, hi, hie⟩ := List.mem_map.mp he
    have hcount : 1 ≤ idxCount (weldMap ts) i := mem_le_idxCount _ r i hr hi
    have hilt : i < 3 * (keptTriangles ts).length := by
      by_contra hge
      rw [weldMap_idxRange ts i, if_neg hge] at hcount
      omega
    rw [hflen, ← hie]
    omega
  · intro j hj k hk
    have hcount : 1 ≤ idxCount (weldMap ts) (3 * j + k) := by
      rw [weldMap_idxRange ts (3 * j + k), if_pos (by omega)]
    obtain ⟨g, hg, hglen⟩ := groupIdx_of_count _ _ hcount
    refine ⟨g, hg, ?_, ?_⟩
    · rw [hVlen]
      exact hglen
    · rw [hcorner j k hk (by omega), hg]

/-- Witness for C6 at a concrete two-vertex input. -/
theorem C6_weld_idempotent_witness :
    (0 : ℚ) < 1 ∧
    (merge_vertices ((merge_vertices [⟨0, 0, 0⟩, ⟨4, 0, 0⟩] 1).map (fun r => r.2.1)) 1).length =
      (merge_vertices [⟨0, 0, 0⟩, ⟨4, 0, 0⟩] 1).length :=
  ⟨by norm_num, C6_weld_idempotent _ _ (by norm_num)⟩

/-- An input whose first triangle is degenerate (two coincident corners) and
whose second is retained; the extent is 65536, so the tolerance is 1. -/
def filteredSlotTriangles : List Triangle :=
  [⟨⟨0, 0, 0⟩, ⟨0, 0, 0⟩, ⟨65536, 65536, 65536⟩⟩,
   ⟨⟨0, 0, 0⟩, ⟨65536, 0, 0⟩, ⟨0, 65536, 0⟩⟩]

theorem filteredSlot_tolerance : tolerance filteredSlotTriangles = 1 := by
  norm_num [tolerance, bounding_box, triVerts, vmin3, vmax3, vmax, vsub,
    filteredSlotTriangles]

theorem filteredSlot_kept :
    keptTriangles filteredSlotTriangles = [⟨⟨0, 0, 0⟩, ⟨65536, 0, 0⟩, ⟨0, 65536, 0⟩⟩] := by
  unfold keptTriangles
  rw [filteredSlot_tolerance]
  norm_num [filteredSlotTriangles, keepTriangle, cheb, vabs, vmax, vsub, List.filter]

theorem filteredSlot_new :
    TriangleMesh.new filteredSlotTriangles =
      ⟨[⟨0, 0, 0⟩, ⟨65536, 0, 0⟩, ⟨0, 65536, 0⟩], [(0, 1, 2), (0, 0, 0)],
       [[0], [0], [0]]⟩ := by
  simp only [TriangleMesh.new, filteredSlot_tolerance]
  norm_num [filteredSlotTriangles, keepTriangle, cheb, vabs, vmax, vsub, triVerts,
    merge_vertices, mergeAux, processVertex, quantize_one, findMerge, probeCells,
    mergeHit, QMap.find, QMap.pushIndex, List.find?, buildStep, setCorner, Prod.ext_iff,
    List.replicate, List.set]

/-- Counterexample to claim C10 as stated: in the input
`filteredSlotTriangles` the DEGENERATE triangle occupies position 0, yet its
face slot is rewritten with the retained triangle's corner indices (0,1,2);
only the trailing slot keeps the placeholder.  Corner indices are assigned
over the filtered stream while the face list is sized by the original count. -/
theorem C10_claim_fails_slot_rewritten :
    degenerateTriangle (tolerance filteredSlotTriangles)
      ⟨⟨0, 0, 0⟩, ⟨0, 0, 0⟩, ⟨65536, 65536, 65536⟩⟩ ∧
    (TriangleMesh.new filteredSlotTriangles).faces.getD 0 (0, 0, 0) = (0, 1, 2) ∧
    (TriangleMesh.new filteredSlotTriangles).faces.getD 0 (0, 0, 0) ≠ (0, 0, 0) := by
  refine ⟨?_, ?_, ?_⟩
  · rw [filteredSlot_tolerance]
    norm_num [degenerateTriangle, cheb, vabs, vmax, vsub]
  · rw [filteredSlot_new]
    rfl
  · rw [filteredSlot_new]
    decide

/-- Witness for C10's amended claim at `filteredSlotTriangles`. -/
theorem C10_faces_length_and_padding_witness :
    ((keptTriangles filteredSlotTriangles).length ≤ 1 ∧ 1 < filteredSlotTriangles.length) ∧
    ((TriangleMesh.new filteredSlotTriangles).faces.length = filteredSlotTriangles.length ∧
     (TriangleMesh.new filteredSlotTriangles).faces.getD 1 (0, 0, 0) = (0, 0, 0)) := by
  have hk : (keptTriangles filteredSlotTriangles).length ≤ 1 := by
    rw [filteredSlot_kept]
    norm_num
  have hl : 1 < filteredSlotTriangles.length := by
    norm_num [filteredSlotTriangles]
  exact ⟨⟨hk, hl⟩, (C10_faces_length_and_padding filteredSlotTriangles).1,
    (C10_faces_length_and_padding filteredSlotTriangles).2 1 hk hl⟩

/-- Witness for C2 at `filteredSlotTriangles` and its degenerate triangle. -/
theorem C2_degenerate_excluded_witness :
    degenerateTriangle (tolerance filteredSlotTriangles)
      ⟨⟨0, 0, 0⟩, ⟨0, 0, 0⟩, ⟨65536, 65536, 65536⟩⟩ ∧
    (⟨⟨0, 0, 0⟩, ⟨0, 0, 0⟩, ⟨65536, 65536, 65536⟩⟩ : Triangle) ∉
        keptTriangles filteredSlotTriangles ∧
      TriangleMesh.new filteredSlotTriangles =
        (merge_vertices ((keptTriangles filteredSlotTriangles).flatMap triVerts)
          (tolerance filteredSlotTriangles)).foldl buildStep
          ⟨[], List.replicate filteredSlotTriangles.length (0, 0, 0), []⟩ ∧
      ∀ j, (keptTriangles filteredSlotTriangles).length ≤ j →
        j < filteredSlotTriangles.length →
        (TriangleMesh.new filteredSlotTriangles).faces.getD j (0, 0, 0) = (0, 0, 0) := by
  have hdeg : degenerateTriangle (tolerance filteredSlotTriangles)
      ⟨⟨0, 0, 0⟩, ⟨0, 0, 0⟩, ⟨65536, 65536, 65536⟩⟩ := by
    rw [filteredSlot_tolerance]
    norm_num [degenerateTriangle, cheb, vabs, vmax, vsub]
  exact ⟨hdeg, C2_degenerate_excluded filteredSlotTriangles _ hdeg⟩

/-- Two triangles, both with a pair of exactly coincident corners: everything
is filtered, the vertex list is empty, yet two placeholder faces remain. -/
def allDegenerateTriangles : List Triangle :=
  [⟨⟨0, 0, 0⟩, ⟨0, 0, 0⟩, ⟨65536, 65536, 65536⟩⟩,
   ⟨⟨65536, 65536, 65536⟩, ⟨65536, 65536, 65536⟩, ⟨0, 0, 0⟩⟩]

theorem allDeg_new :
    TriangleMesh.new allDegenerateTriangles = ⟨[], [(0, 0, 0), (0, 0, 0)], []⟩ := by
  have htol : tolerance allDegenerateTriangles = 1 := by
    norm_num [tolerance, bounding_box, triVerts, vmin3, vmax3, vmax, vsub,
      allDegenerateTriangles]
  simp only [TriangleMesh.new, htol]
  norm_num [allDegenerateTriangles, keepTriangle, cheb, vabs, vmax, vsub, triVerts,
    merge_vertices, mergeAux, List.replicate]

/-- Three retained triangles whose corners nevertheless weld down to two
groups, because the merge test compares signed components: the adjacency map
then stores the face index 2, which exceeds the vertex count 2. -/
def collapsingTriangles : List Triangle :=
  [⟨⟨0, 0, 0⟩, ⟨1, 0, 0⟩, ⟨0, 1, 0⟩⟩,
   ⟨⟨0, 0, 0⟩, ⟨1, 0, 0⟩, ⟨0, 1, 0⟩⟩,
   ⟨⟨65535, 0, 0⟩, ⟨65536, 0, 0⟩, ⟨65535, 1, 0⟩⟩]

theorem collapse_new :
    TriangleMesh.new collapsingTriangles =
      ⟨[⟨0, 0, 0⟩, ⟨65535, 0, 0⟩], [(0, 0, 0), (0, 0, 0), (1, 1, 1)],
       [[0, 0, 0, 1, 1, 1], [2, 2, 2]]⟩ := by
  have htol : tolerance collapsingTriangles = 1 := by
    norm_num [tolerance, bounding_box, triVerts, vmin3, vmax3, vmax, vsub,
      collapsingTriangles]
  simp only [TriangleMesh.new, htol]
  norm_num [collapsingTriangles, keepTriangle, cheb, vabs, vmax, vsub, triVerts,
    merge_vertices, mergeAux, processVertex, quantize_one, findMerge, probeCells,
    mergeHit, QMap.find, QMap.pushIndex, List.find?, buildStep, setCorner, Prod.ext_iff,
    List.replicate, List.set]

/-- Counterexample to claim C3 as stated: with every triangle filtered the
faces still hold index 0 while the vertex list is empty, and in the
collapsing input an adjacency entry (the face index 2) is not a valid index
into the vertex list (length 2). -/
theorem C3_claim_fails :
    (¬ ∀ f ∈ (TriangleMesh.new allDegenerateTriangles).faces,
        f.1 < (TriangleMesh.new allDegenerateTriangles).vertices.length) ∧
    (¬ ∀ l ∈ (TriangleMesh.new collapsingTriangles).face_map, ∀ e ∈ l,
        e < (TriangleMesh.new collapsingTriangles).vertices.length) := by
  rw [allDeg_new, collapse_new]
  constructor
  · decide
  · decide

theorem fan_kept : keptTriangles fanTriangles = fanTriangles := by
  unfold keptTriangles
  rw [fan_tolerance]
  norm_num [fanTriangles, keepTriangle, cheb, vabs, vmax, vsub, List.filter]

/-- Witness for C3's amended claim at the fan input. -/
theorem C3_mesh_index_invariants_witness :
    (fanTriangles = [] ∨ keptTriangles fanTriangles ≠ []) ∧
    ((∀ f ∈ (TriangleMesh.new fanTriangles).faces,
      f.1 < (TriangleMesh.new fanTriangles).vertices.length ∧
      f.2.1 < (TriangleMesh.new fanTriangles).vertices.length ∧
      f.2.2 < (TriangleMesh.new fanTriangles).vertices.length) ∧
    (∀ l ∈ (TriangleMesh.new fanTriangles).face_map, ∀ e ∈ l,
      e < (TriangleMesh.new fanTriangles).faces.length) ∧
    (∀ j, j < (keptTriangles fanTriangles).length → ∀ k, k < 3 →
      ∃ g, groupIdx (weldMap fanTriangles) (3 * j + k) = some g ∧
        g < (TriangleMesh.new fanTriangles).vertices.length ∧
        cornerVal (TriangleMesh.new fanTriangles).faces j k = g)) := by
  have h : fanTriangles = [] ∨ keptTriangles fanTriangles ≠ [] := by
    right
    rw [fan_kept]
    simp only [fanTriangles]
    exact List.cons_ne_nil _ _
  exact ⟨h, C3_mesh_index_invariants fanTriangles h⟩
